import Mathlib

/-!
Verification of the syllabus relevance scorer of `app.py` (`tokenize` and
`search_syllabus`): a shallow embedding of the code together with proofs of the
specified properties of the tokenizer, the scoring rule, the ranking and the
result construction.
-/

set_option maxHeartbeats 1000000

namespace Tost

/-- The fixed stop-word set of `app.py` (`STOP_WORDS`). -/
def STOP_WORDS : List String :=
  ["the","and","for","with","that","this","from","they","their","them","which",
   "such","into","also","been","were","have","has","had","are","was","but","not",
   "can","use","using","between","within","you","your","what","how","why","when","where","who"]

/-- Maximal runs of ASCII letters in a character list, as strings, with `cur`
the (reversed) run being accumulated.  This is `re.findall(r"[A-Za-z]+", s)`. -/
def tokenRuns : List Char → List Char → List String
  | [], cur => if cur.isEmpty then [] else [String.mk cur.reverse]
  | c :: rest, cur =>
    if c.isAlpha then tokenRuns rest (c :: cur)
    else if cur.isEmpty then tokenRuns rest []
    else String.mk cur.reverse :: tokenRuns rest []

/-- Python's `str.lower()` on one character.  Unicode lowercasing is modelled
exactly on the ASCII range and on the only two characters whose Unicode
lowercase contains ASCII letters: U+212A KELVIN SIGN lower-cases to `k`, and
U+0130 LATIN CAPITAL LETTER I WITH DOT ABOVE lower-cases to `i` followed by
the combining dot U+0307 (the only multi-character lowercase expansion in
Unicode).  Every other character's Unicode lowercase contains no ASCII
letter, so mapping it to itself is indistinguishable through the ASCII-run
extraction that consumes the result. -/
def pyLowerChar (c : Char) : List Char :=
  if c.toNat = 0x212A then ['k']
  else if c.toNat = 0x130 then ['i', Char.ofNat 0x307]
  else [Char.toLower c]

/-- Python's `str.lower()` over the characters of a string. -/
def pyLower (cs : List Char) : List Char := cs.flatMap pyLowerChar

/-- `tokenize(text)` of `app.py`: lower-case the text (Unicode `str.lower()`,
applied before run extraction), extract the maximal alphabetic runs
(`re.findall(r"[A-Za-z]+", ...)`), and keep a run only if it is not a stop
word and is longer than 2 characters. -/
def tokenize (text : String) : List String :=
  let tokens := tokenRuns (pyLower text.data) []
  tokens.filter (fun t => !(STOP_WORDS.contains t) && decide (t.length > 2))

/-- A subtopic record: in the source a dict whose `name` and `keywords` keys may
be absent (`sub.get("name")`, `sub.get("keywords", [])`). -/
structure Subtopic where
  name : Option String
  keywords : Option (List String)
deriving DecidableEq

/-- A syllabus entry record (catalog format of the spec): citation fields plus
optional `weight`, `keywords` and `subtopics` keys, absent keys modelled as
`none` (`entry.get("weight", 1)` etc.). -/
structure Entry where
  topic : String
  syllabus_reference : String
  book : String
  chapter : String
  page_range : String
  weight : Option Int
  keywords : Option (List String)
  subtopics : Option (List Subtopic)
deriving DecidableEq

/-- A returned match: the copied entry fields, the added `score` key, and the
`matched_subtopics` key which the code adds only when the matched list is
non-empty (`none` = key absent). -/
structure ScoredMatch where
  entry : Entry
  score : Int
  matched_subtopics : Option (List (Option String))
deriving DecidableEq

/-- `" ".join(l)`. -/
def joinSpace (l : List String) : String := String.intercalate " " l

/-- The token list of an entry's keywords:
`tokenize(" ".join(entry.get("keywords", [])))`. -/
def entryTokens (e : Entry) : List String := tokenize (joinSpace (e.keywords.getD []))

/-- The token list of a subtopic's keywords:
`tokenize(" ".join(sub.get("keywords", [])))`. -/
def subTokens (s : Subtopic) : List String := tokenize (joinSpace (s.keywords.getD []))

/-- `sum(weight for t in q_tokens if t in e_tokens)`. -/
def matchScore (weight : Int) (qTokens eTokens : List String) : Int :=
  ((qTokens.filter (fun t => decide (t ∈ eTokens))).map (fun _ => weight)).sum

/-- One iteration of the subtopic loop: add the subtopic score when it is
non-zero and record the subtopic's name. -/
def subStep (weight : Int) (qTokens : List String)
    (acc : Int × List (Option String)) (sub : Subtopic) : Int × List (Option String) :=
  let sub_score := matchScore weight qTokens (subTokens sub)
  if sub_score ≠ 0 then (acc.1 + sub_score, acc.2 ++ [sub.name]) else acc

/-- The per-entry body of `search_syllabus`: base score from the entry's own
keywords, then the subtopic loop; returns the total score and the matched
subtopic names. -/
def scoreEntry (qTokens : List String) (entry : Entry) : Int × List (Option String) :=
  let weight := entry.weight.getD 1
  let base := matchScore weight qTokens (entryTokens entry)
  (entry.subtopics.getD []).foldl (subStep weight qTokens) (base, [])

/-- A hit as appended to `hits`: `(score, entry, matched_sub)`. -/
abbrev Hit := Int × Entry × List (Option String)

/-- The candidate hit an entry produces, when its score is non-zero. -/
def hitOf (qTokens : List String) (entry : Entry) : Option Hit :=
  let sm := scoreEntry qTokens entry
  if sm.1 ≠ 0 then some (sm.1, entry, sm.2) else none

/-- The `hits` list built by the entry loop. -/
def hitsFor (qTokens : List String) (data : List Entry) : List Hit :=
  data.filterMap (hitOf qTokens)

/-- Insert `x` into a list sorted by `key` descending, before the first element
whose key is at most `key x` (so equal keys keep their relative order). -/
def insertDesc {α : Type} (key : α → Int) (x : α) : List α → List α
  | [] => [x]
  | y :: ys => if key y ≤ key x then x :: y :: ys else y :: insertDesc key x ys

/-- Stable descending sort by `key`, modelling
`hits.sort(reverse=True, key=lambda x: x[0])` (Python's `list.sort` is a
stable sort; `reverse=True` preserves stability). -/
def sortDesc {α : Type} (key : α → Int) : List α → List α
  | [] => []
  | x :: xs => insertDesc key x (sortDesc key xs)

/-- The result dict built from a hit: `e = entry.copy(); e["score"] = score;
if matched_sub: e["matched_subtopics"] = matched_sub`. -/
def toMatch (h : Hit) : ScoredMatch :=
  { entry := h.2.1, score := h.1,
    matched_subtopics := if h.2.2.isEmpty then none else some h.2.2 }

/-- `search_syllabus(query, data)` of `app.py`. -/
def search_syllabus (query : String) (data : List Entry) : List ScoredMatch :=
  let q_tokens := tokenize query
  let hits := hitsFor q_tokens data
  ((sortDesc (fun h => h.1) hits).take 8).map toMatch

/-! ### Helper lemmas about the stable descending sort -/

theorem insertDesc_perm {α : Type} (key : α → Int) (x : α) (l : List α) :
    List.Perm (insertDesc key x l) (x :: l) := by
  induction l with
  | nil => simp [insertDesc]
  | cons y ys ih =>
    by_cases h : key y ≤ key x
    · simp [insertDesc, h]
    · simp only [insertDesc, if_neg h]
      exact (ih.cons y).trans (List.Perm.swap x y ys)

theorem sortDesc_perm {α : Type} (key : α → Int) (l : List α) :
    List.Perm (sortDesc key l) l := by
  induction l with
  | nil => rfl
  | cons x xs ih => exact (insertDesc_perm key x (sortDesc key xs)).trans (ih.cons x)

theorem pairwise_insertDesc {α : Type} (key : α → Int) (x : α) {l : List α}
    (hl : l.Pairwise (fun a b => key b ≤ key a)) :
    (insertDesc key x l).Pairwise (fun a b => key b ≤ key a) := by
  induction l with
  | nil => simp [insertDesc]
  | cons y ys ih =>
    rcases List.pairwise_cons.mp hl with ⟨hy, hys⟩
    by_cases h : key y ≤ key x
    · simp only [insertDesc, if_pos h]
      refine List.pairwise_cons.mpr ⟨?_, hl⟩
      intro b hb
      rcases List.mem_cons.mp hb with rfl | hb
      · exact h
      · exact le_trans (hy b hb) h
    · simp only [insertDesc, if_neg h]
      refine List.pairwise_cons.mpr ⟨?_, ih hys⟩
      intro b hb
      have hb2 : b ∈ x :: ys := (insertDesc_perm key x ys).mem_iff.mp hb
      rcases List.mem_cons.mp hb2 with rfl | hb3
      · exact le_of_not_le h
      · exact hy b hb3

theorem sortDesc_pairwise {α : Type} (key : α → Int) (l : List α) :
    (sortDesc key l).Pairwise (fun a b => key b ≤ key a) := by
  induction l with
  | nil => simp [sortDesc]
  | cons x xs ih => exact pairwise_insertDesc key x ih

theorem filter_insertDesc {α : Type} (key : α → Int) (x : α) (l : List α) (k : Int) :
    (insertDesc key x l).filter (fun a => decide (key a = k)) =
      if key x = k then x :: l.filter (fun a => decide (key a = k))
      else l.filter (fun a => decide (key a = k)) := by
  induction l with
  | nil => by_cases hx : key x = k <;> simp [insertDesc, List.filter, hx]
  | cons y ys ih =>
    by_cases h : key y ≤ key x
    · simp only [insertDesc, if_pos h, List.filter_cons]
      by_cases hx : key x = k <;> by_cases hy : key y = k <;> simp [hx, hy]
    · have hlt : key x < key y := lt_of_not_le h
      simp only [insertDesc, if_neg h, List.filter_cons, ih]
      by_cases hx : key x = k <;> by_cases hy : key y = k
      · exfalso; omega
      · simp [hx, hy]
      · simp [hx, hy]
      · simp [hx, hy]

/-- The sort is stable: it does not change the subsequence of elements holding
any fixed key. -/
theorem sortDesc_filter {α : Type} (key : α → Int) (l : List α) (k : Int) :
    (sortDesc key l).filter (fun a => decide (key a = k)) =
      l.filter (fun a => decide (key a = k)) := by
  induction l with
  | nil => rfl
  | cons x xs ih =>
    simp only [sortDesc, filter_insertDesc, ih, List.filter_cons]
    by_cases hx : key x = k <;> simp [hx]

/-- Two equal-key elements keep their relative order through the sort. -/
theorem sublist_sortDesc_of_key_eq {α : Type} (key : α → Int) {a b : α} {l : List α}
    (hs : [a, b].Sublist l) (hk : key a = key b) :
    [a, b].Sublist (sortDesc key l) := by
  have hfab : [a, b].filter (fun z => decide (key z = key b)) = [a, b] := by
    simp [List.filter_cons, hk]
  have h1 : [a, b].Sublist (l.filter (fun z => decide (key z = key b))) := by
    have := hs.filter (fun z => decide (key z = key b))
    rwa [hfab] at this
  rw [← sortDesc_filter key l (key b)] at h1
  exact h1.trans (List.filter_sublist _)

/-- Index of the first occurrence of `x`; `l.length` when `x` is absent. -/
def firstPos {α : Type} [DecidableEq α] (x : α) : List α → Nat
  | [] => 0
  | y :: ys => if y = x then 0 else firstPos x ys + 1

/-- In a list sorted by `key` descending, an element with a strictly larger key
occurs strictly earlier. -/
theorem firstPos_lt_of_key_lt {α : Type} [DecidableEq α] (key : α → Int) {l : List α}
    (hs : l.Pairwise (fun a b => key b ≤ key a)) {x y : α}
    (hx : x ∈ l) (hy : y ∈ l) (hk : key y < key x) :
    firstPos x l < firstPos y l := by
  induction l with
  | nil => cases hx
  | cons z zs ih =>
    rcases List.pairwise_cons.mp hs with ⟨hz, hzs⟩
    by_cases hzx : z = x
    · subst hzx
      have hyz : ¬ z = y := by
        intro h; rw [h] at hk; exact lt_irrefl _ hk
      simp [firstPos, hyz]
    · have hxzs : x ∈ zs := by
        rcases List.mem_cons.mp hx with h | h
        · exact absurd h.symm hzx
        · exact h
      have hzy : ¬ z = y := by
        intro h
        have := hz x hxzs
        rw [h] at this
        omega
      have hyzs : y ∈ zs := by
        rcases List.mem_cons.mp hy with h | h
        · exact absurd h.symm hzy
        · exact h
      simp only [firstPos, if_neg hzx, if_neg hzy]
      exact Nat.succ_lt_succ (ih hzs hxzs hyzs)

theorem firstPos_map_of_inj {α β : Type} [DecidableEq α] [DecidableEq β] (f : α → β)
    (hf : ∀ a a2, f a = f a2 → a = a2) (x : α) (l : List α) :
    firstPos (f x) (l.map f) = firstPos x l := by
  induction l with
  | nil => rfl
  | cons y ys ih =>
    simp only [List.map_cons, firstPos, ih]
    by_cases h : y = x
    · simp [h]
    · have : ¬ f y = f x := fun he => h (hf y x he)
      simp [h, this]

/-! ### Helper lemmas about the scoring -/

theorem sum_map_const {α : Type} (l : List α) (w : Int) :
    (l.map (fun _ => w)).sum = w * (l.length : Int) := by
  induction l with
  | nil => simp
  | cons x xs ih => simp [ih]; ring

/-- The base-score sum of the source is the weight times the number of matching
query-token occurrences (duplicates counted). -/
theorem matchScore_eq (w : Int) (qT eT : List String) :
    matchScore w qT eT = w * (((qT.filter (fun t => decide (t ∈ eT))).length : Nat) : Int) :=
  sum_map_const _ _

theorem foldl_subStep_spec (w : Int) (qT : List String) (subs : List Subtopic) :
    ∀ acc : Int × List (Option String),
      (subs.foldl (subStep w qT) acc).1 =
        acc.1 + (subs.map (fun s => matchScore w qT (subTokens s))).sum ∧
      (subs.foldl (subStep w qT) acc).2 =
        acc.2 ++ (subs.filter (fun s => decide (matchScore w qT (subTokens s) ≠ 0))).map
          (fun s => s.name) := by
  induction subs with
  | nil => intro acc; simp
  | cons s ss ih =>
    intro acc
    by_cases h : matchScore w qT (subTokens s) ≠ 0
    · have := ih (acc.1 + matchScore w qT (subTokens s), acc.2 ++ [s.name])
      simp only [List.foldl_cons, subStep, if_pos h] at *
      rcases this with ⟨h1, h2⟩
      constructor
      · rw [h1]; simp [List.sum_cons]; ring
      · rw [h2]; simp [List.filter_cons, h]
    · have hz : matchScore w qT (subTokens s) = 0 := by
        by_contra hc; exact h hc
      have := ih acc
      simp only [List.foldl_cons, subStep, if_neg h] at *
      rcases this with ⟨h1, h2⟩
      constructor
      · rw [h1]; simp [List.sum_cons, hz]
      · rw [h2]; simp [List.filter_cons, hz]

/-- Total score = base score + the sum of all subtopic scores (zero subtopic
scores contribute nothing, so the guard in the loop does not change the sum). -/
theorem scoreEntry_fst (qT : List String) (e : Entry) :
    (scoreEntry qT e).1 =
      matchScore (e.weight.getD 1) qT (entryTokens e) +
        ((e.subtopics.getD []).map
          (fun s => matchScore (e.weight.getD 1) qT (subTokens s))).sum :=
  (foldl_subStep_spec _ _ _ _).1

/-- The matched names are exactly the names of the subtopics with non-zero
score, in subtopic order. -/
theorem scoreEntry_snd (qT : List String) (e : Entry) :
    (scoreEntry qT e).2 =
      ((e.subtopics.getD []).filter
        (fun s => decide (matchScore (e.weight.getD 1) qT (subTokens s) ≠ 0))).map
        (fun s => s.name) := by
  have := (foldl_subStep_spec (e.weight.getD 1) qT (e.subtopics.getD [])
    (matchScore (e.weight.getD 1) qT (entryTokens e), [])).2
  simpa [scoreEntry] using this

/-! ### Lemmas about `hitsFor` and `search_syllabus` -/

theorem hitsFor_eq (qT : List String) (data : List Entry) :
    hitsFor qT data = (data.filter (fun e => decide ((scoreEntry qT e).1 ≠ 0))).map
      (fun e => ((scoreEntry qT e).1, e, (scoreEntry qT e).2)) := by
  induction data with
  | nil => rfl
  | cons e es ih =>
    simp only [hitsFor, List.filterMap_cons, List.filter_cons] at *
    by_cases h : (scoreEntry qT e).1 ≠ 0
    · simp [hitOf, h, ih]
    · simp [hitOf, h, ih]

theorem mem_hitsFor {qT : List String} {data : List Entry} {h : Hit} :
    h ∈ hitsFor qT data ↔ ∃ e ∈ data, (scoreEntry qT e).1 ≠ 0 ∧
      h = ((scoreEntry qT e).1, e, (scoreEntry qT e).2) := by
  rw [hitsFor, List.mem_filterMap]
  constructor
  · rintro ⟨e, he, hf⟩
    refine ⟨e, he, ?_⟩
    by_cases hnz : (scoreEntry qT e).1 ≠ 0
    · simp only [hitOf, if_pos hnz, Option.some.injEq] at hf
      exact ⟨hnz, hf.symm⟩
    · simp [hitOf, hnz] at hf
  · rintro ⟨e, he, hnz, rfl⟩
    exact ⟨e, he, by simp [hitOf, hnz]⟩

theorem mem_search {q : String} {data : List Entry} {r : ScoredMatch}
    (hr : r ∈ search_syllabus q data) :
    ∃ e ∈ data, (scoreEntry (tokenize q) e).1 ≠ 0 ∧
      r = toMatch ((scoreEntry (tokenize q) e).1, e, (scoreEntry (tokenize q) e).2) := by
  simp only [search_syllabus] at hr
  rcases List.mem_map.mp hr with ⟨h, hh, rfl⟩
  have h1 : h ∈ sortDesc (fun h => h.1) (hitsFor (tokenize q) data) :=
    (List.take_sublist 8 _).mem hh
  have h2 : h ∈ hitsFor (tokenize q) data := (sortDesc_perm _ _).mem_iff.mp h1
  rcases mem_hitsFor.mp h2 with ⟨e, he, hnz, rfl⟩
  exact ⟨e, he, hnz, rfl⟩

/-! ### Character-level lemmas for the tokenizer -/

theorem uint32_le_iff (a b : UInt32) : a ≤ b ↔ a.toNat ≤ b.toNat := Iff.rfl

theorem toNat_ofNat_valid {n : Nat} (h : n.isValidChar) : (Char.ofNat n).toNat = n := by
  rw [Char.ofNat, dif_pos h]
  rfl

/-- ASCII lower-casing does not change whether a character is an ASCII letter. -/
theorem isAlpha_toLower (c : Char) : (Char.toLower c).isAlpha = c.isAlpha := by
  rw [Char.toLower]
  by_cases h : c.toNat ≥ 65 ∧ c.toNat ≤ 90
  · rw [if_pos h]
    rcases h with ⟨h1, h2⟩
    have hv : (c.toNat + 32).isValidChar := Or.inl (by omega)
    have ht : (Char.ofNat (c.toNat + 32)).toNat = c.toNat + 32 := toNat_ofNat_valid hv
    have e65 : (65 : UInt32).toNat = 65 := rfl
    have e90 : (90 : UInt32).toNat = 90 := rfl
    have e97 : (97 : UInt32).toNat = 97 := rfl
    have e122 : (122 : UInt32).toNat = 122 := rfl
    have hcn : Char.toNat c = c.val.toNat := rfl
    have htn : Char.toNat (Char.ofNat (c.toNat + 32)) = (Char.ofNat (c.toNat + 32)).val.toNat := rfl
    have hc : c.isAlpha = true := by
      simp only [Char.isAlpha, Char.isUpper, Char.isLower, Bool.or_eq_true, Bool.and_eq_true,
        decide_eq_true_eq, ge_iff_le, uint32_le_iff, e65, e90, e97, e122]
      rw [hcn] at h1 h2
      omega
    have hc2 : (Char.ofNat (c.toNat + 32)).isAlpha = true := by
      simp only [Char.isAlpha, Char.isUpper, Char.isLower, Bool.or_eq_true, Bool.and_eq_true,
        decide_eq_true_eq, ge_iff_le, uint32_le_iff, e65, e90, e97, e122]
      rw [hcn] at h1 h2
      rw [htn] at ht
      omega
    rw [hc, hc2]
  · rw [if_neg h]

/-! ### The tokenizer as the spec words it -/

/-- Modelled from the spec's words ("extract maximal runs of ASCII alphabetic
characters ... anything else is a separator"): the maximal ASCII-letter runs of
the original characters, before any case change. -/
def runsOfAlpha : List Char → List Char → List (List Char)
  | [], cur => if cur.isEmpty then [] else [cur.reverse]
  | c :: rest, cur =>
    if c.isAlpha then runsOfAlpha rest (c :: cur)
    else if cur.isEmpty then runsOfAlpha rest []
    else cur.reverse :: runsOfAlpha rest []

/-- Modelled from the spec's words: extract the maximal ASCII-letter runs of the
text, lower-case each run, then discard stop words and runs shorter than 3
characters, preserving order and duplicates. -/
def tokenizeSpec (text : String) : List String :=
  ((runsOfAlpha text.data []).map (fun r => String.mk (r.map Char.toLower))).filter
    (fun t => !(STOP_WORDS.contains t) && decide (t.length > 2))

theorem isEmpty_map {α β : Type} (f : α → β) (l : List α) : (l.map f).isEmpty = l.isEmpty := by
  cases l <;> rfl

theorem tokenRuns_map_toLower (cs : List Char) :
    ∀ cur : List Char, tokenRuns (cs.map Char.toLower) (cur.map Char.toLower) =
      (runsOfAlpha cs cur).map (fun r => String.mk (r.map Char.toLower)) := by
  induction cs with
  | nil =>
    intro cur
    simp only [List.map_nil, tokenRuns, runsOfAlpha, isEmpty_map]
    by_cases h : cur.isEmpty
    · simp [h]
    · simp [h, List.map_reverse]
  | cons c rest ih =>
    intro cur
    simp only [List.map_cons, tokenRuns, runsOfAlpha, isAlpha_toLower, isEmpty_map]
    by_cases ha : c.isAlpha
    · have := ih (c :: cur)
      simp only [List.map_cons] at this
      simp [ha, this]
    · by_cases he : cur.isEmpty
      · have := ih []
        simp only [List.map_nil] at this
        simp [ha, he, this]
      · have := ih []
        simp only [List.map_nil] at this
        simp [ha, he, this, List.map_reverse]

theorem pyLower_eq_map_toLower (cs : List Char)
    (h : ∀ c ∈ cs, c.toNat ≠ 0x212A ∧ c.toNat ≠ 0x130) :
    pyLower cs = cs.map Char.toLower := by
  induction cs with
  | nil => rfl
  | cons c rest ih =>
    rcases h c (List.mem_cons_self c rest) with ⟨h1, h2⟩
    have ih2 := ih (fun c2 hc2 => h c2 (List.mem_cons_of_mem c hc2))
    show pyLowerChar c ++ pyLower rest = (c :: rest).map Char.toLower
    rw [ih2]
    simp [pyLowerChar, h1, h2]

/-! ### Claim theorems -/

/-- A string of three KELVIN SIGN (U+212A) characters. -/
def kelvinString : String :=
  String.mk [Char.ofNat 0x212A, Char.ofNat 0x212A, Char.ofNat 0x212A]

/-- C3 counterexample: `str.lower()` runs before the ASCII-run extraction, so
on a string of three KELVIN SIGN characters — none of which is an ASCII
letter — the code produces the token `"kkk"`, while the claimed description
(maximal ASCII-alphabetic runs of the input, lower-cased) produces no token
at all. -/
theorem tokenize_kelvin_cex :
    tokenize kelvinString = ["kkk"] ∧
    tokenizeSpec kelvinString = [] ∧
    (∀ c ∈ kelvinString.data, c.isAlpha = false) := by
  decide

/-- C3 (amended): for every string containing neither U+212A (KELVIN SIGN)
nor U+0130 (LATIN CAPITAL LETTER I WITH DOT ABOVE) — the only characters
whose Unicode lowercase introduces ASCII letters — `tokenize` yields exactly
the sequence of maximal ASCII-alphabetic runs of the input, lower-cased, with
runs dropped when they are stop words or shorter than 3 characters, order and
duplicates preserved; `tokenize "The Quick Fox jumps"` excludes `"the"` and
yields exactly `["quick", "fox", "jumps"]`, and empty input yields empty
output. -/
theorem tokenize_correct (text : String)
    (hplain : ∀ c ∈ text.data, c.toNat ≠ 0x212A ∧ c.toNat ≠ 0x130) :
    tokenize text = tokenizeSpec text ∧
    tokenize "" = [] ∧
    tokenize "The Quick Fox jumps" = ["quick", "fox", "jumps"] ∧
    "the" ∉ tokenize "The Quick Fox jumps" := by
  refine ⟨?_, by decide, by decide, by decide⟩
  have h := tokenRuns_map_toLower text.data []
  simp only [List.map_nil] at h
  simp only [tokenize, tokenizeSpec, pyLower_eq_map_toLower text.data hplain, h]

/-- Witness for the amended C3: the hypothesis holds for the quoted example
string, and the theorem then evaluates the tokenizer on it. -/
theorem tokenize_correct_witness :
    tokenize "The Quick Fox jumps" = ["quick", "fox", "jumps"] :=
  (tokenize_correct "The Quick Fox jumps" (by decide)).2.2.1

/-- C2: for every query and catalog, the result list of `search_syllabus` has
length at most 8 and its scores are in non-increasing order. -/
theorem search_sorted_and_capped (q : String) (data : List Entry) :
    (search_syllabus q data).length ≤ 8 ∧
    (search_syllabus q data).Pairwise (fun a b => b.score ≤ a.score) := by
  constructor
  · simp only [search_syllabus, List.length_map]
    exact List.length_take_le 8 _
  · simp only [search_syllabus]
    rw [List.pairwise_map]
    exact ((sortDesc_pairwise (fun h : Hit => h.1)
      (hitsFor (tokenize q) data)).sublist (List.take_sublist 8 _))

/-- Catalog of nine entries that all match the query `"cat"` with score 1. -/
def cexEntry (t : String) : Entry :=
  { topic := t, syllabus_reference := "", book := "", chapter := "", page_range := "",
    weight := none, keywords := some ["cat"], subtopics := none }

def data9 : List Entry :=
  ["t1", "t2", "t3", "t4", "t5", "t6", "t7", "t8", "t9"].map cexEntry

/-- C1 counterexample: the ninth entry of `data9` has non-zero total score for
the query `"cat"` but does not appear in the results, because the result list
is truncated to the top 8 hits; so a non-zero total score does not imply
inclusion in the results. -/
theorem score_nonzero_not_included_cex :
    (scoreEntry (tokenize "cat") (cexEntry "t9")).1 ≠ 0 ∧
    cexEntry "t9" ∈ data9 ∧
    ∀ r ∈ search_syllabus "cat" data9, r.entry ≠ cexEntry "t9" := by
  decide

/-- C1 (amended): the base score is the entry's weight times the number of
query-token occurrences (duplicates counted) found in the entry's token set;
the total score adds the analogous subtopic scores; an entry is kept as a hit
exactly when its total score is non-zero; and every returned result carries a
non-zero total score of a catalog entry (inclusion in the returned list is
additionally subject to the top-8 truncation). -/
theorem scoring_and_inclusion_rule (q : String) (data : List Entry) (e : Entry) :
    matchScore (e.weight.getD 1) (tokenize q) (entryTokens e) =
      (e.weight.getD 1) *
        ((((tokenize q).filter (fun t => decide (t ∈ entryTokens e))).length : Nat) : Int) ∧
    (scoreEntry (tokenize q) e).1 =
      matchScore (e.weight.getD 1) (tokenize q) (entryTokens e) +
        ((e.subtopics.getD []).map
          (fun s => matchScore (e.weight.getD 1) (tokenize q) (subTokens s))).sum ∧
    hitsFor (tokenize q) data =
      (data.filter (fun e2 => decide ((scoreEntry (tokenize q) e2).1 ≠ 0))).map
        (fun e2 => ((scoreEntry (tokenize q) e2).1, e2, (scoreEntry (tokenize q) e2).2)) ∧
    (∀ r ∈ search_syllabus q data, r.score ≠ 0 ∧
      ∃ e2 ∈ data, r.entry = e2 ∧ r.score = (scoreEntry (tokenize q) e2).1) := by
  refine ⟨matchScore_eq _ _ _, scoreEntry_fst _ _, hitsFor_eq _ _, ?_⟩
  intro r hr
  rcases mem_search hr with ⟨e2, he2, hnz, rfl⟩
  exact ⟨hnz, e2, he2, rfl, rfl⟩

/-- Witness for the amended C1: on a one-entry catalog matching the query, the
returned result indeed has non-zero score equal to the entry's total score. -/
theorem scoring_and_inclusion_rule_witness :
    ({ entry := cexEntry "t1", score := 1, matched_subtopics := none } : ScoredMatch).score ≠ 0 :=
  (((scoring_and_inclusion_rule "cat" [cexEntry "t1"] (cexEntry "t1")).2.2.2)
    { entry := cexEntry "t1", score := 1, matched_subtopics := none } (by decide)).1

/-- C6: a query whose tokens overlap no entry's and no subtopic's keyword
tokens produces an empty result list (and no failure: the function is total). -/
theorem no_overlap_empty (q : String) (data : List Entry)
    (h : ∀ e ∈ data, (∀ t ∈ tokenize q, t ∉ entryTokens e) ∧
      ∀ s ∈ e.subtopics.getD [], ∀ t ∈ tokenize q, t ∉ subTokens s) :
    search_syllabus q data = [] := by
  have hh : hitsFor (tokenize q) data = [] := by
    rw [hitsFor, List.filterMap_eq_nil_iff]
    intro e he
    rcases h e he with ⟨hbase, hsub⟩
    have hb : matchScore (e.weight.getD 1) (tokenize q) (entryTokens e) = 0 := by
      rw [matchScore]
      have hf : (tokenize q).filter (fun t => decide (t ∈ entryTokens e)) = [] := by
        rw [List.filter_eq_nil_iff]
        intro t ht
        simpa using hbase t ht
      rw [hf]
      rfl
    have htot : (scoreEntry (tokenize q) e).1 = 0 := by
      rw [scoreEntry_fst, hb]
      have : ((e.subtopics.getD []).map
          (fun s => matchScore (e.weight.getD 1) (tokenize q) (subTokens s))).sum = 0 := by
        apply List.sum_eq_zero
        intro x hx
        rcases List.mem_map.mp hx with ⟨s, hs, rfl⟩
        rw [matchScore]
        have hf : (tokenize q).filter (fun t => decide (t ∈ subTokens s)) = [] := by
          rw [List.filter_eq_nil_iff]
          intro t ht
          simpa using hsub s hs t ht
        rw [hf]
        rfl
      rw [this]
      ring
    simp [hitOf, htot]
  simp [search_syllabus, hh, sortDesc]

/-- Witness for C6: a concrete query token-disjoint from a concrete catalog
yields the empty result list. -/
theorem no_overlap_empty_witness : search_syllabus "dog" [cexEntry "t1"] = [] :=
  no_overlap_empty "dog" [cexEntry "t1"] (by decide)

/-- A subtopic with its optional `keywords` key resolved to its default. -/
def normalizeSubtopic (s : Subtopic) : Subtopic :=
  { name := s.name, keywords := some (s.keywords.getD []) }

/-- An entry with its optional `weight`, `keywords`, `subtopics` keys resolved
to their defaults (`1`, `[]`, `[]`). -/
def normalizeEntry (e : Entry) : Entry :=
  { e with
    weight := some (e.weight.getD 1)
    keywords := some (e.keywords.getD [])
    subtopics := some ((e.subtopics.getD []).map normalizeSubtopic) }

theorem scoreEntry_normalize (qT : List String) (e : Entry) :
    scoreEntry qT (normalizeEntry e) = scoreEntry qT e := by
  simp only [scoreEntry, normalizeEntry, Option.getD_some, List.foldl_map]
  rfl

theorem insertDesc_map {α β : Type} (key : α → Int) (keyb : β → Int) (g : α → β)
    (hk : ∀ x, keyb (g x) = key x) (x : α) (l : List α) :
    insertDesc keyb (g x) (l.map g) = (insertDesc key x l).map g := by
  induction l with
  | nil => rfl
  | cons y ys ih =>
    simp only [List.map_cons, insertDesc, hk]
    by_cases h : key y ≤ key x
    · simp [h]
    · simp [h, ih]

theorem sortDesc_map {α β : Type} (key : α → Int) (keyb : β → Int) (g : α → β)
    (hk : ∀ x, keyb (g x) = key x) (l : List α) :
    sortDesc keyb (l.map g) = (sortDesc key l).map g := by
  induction l with
  | nil => rfl
  | cons x xs ih => simp only [List.map_cons, sortDesc, ih, insertDesc_map key keyb g hk]

theorem hitOf_normalize (qT : List String) (e : Entry) :
    hitOf qT (normalizeEntry e) =
      (hitOf qT e).map (fun h => (h.1, normalizeEntry h.2.1, h.2.2)) := by
  simp only [hitOf, scoreEntry_normalize]
  by_cases h : (scoreEntry qT e).1 ≠ 0
  · simp [h]
  · simp [h]

/-- C7: missing optional fields behave exactly as their defaults: absent
`weight` scores as weight 1, absent `keywords` as an empty keyword list, absent
`subtopics` as no subtopics; consequently a catalog whose optional fields are
all resolved to defaults produces the same results (up to the same resolution
inside the returned copies), and the search is a total function. -/
theorem missing_fields_default (q : String) (data : List Entry) (e : Entry) :
    scoreEntry (tokenize q) { e with weight := none } =
      scoreEntry (tokenize q) { e with weight := some 1 } ∧
    scoreEntry (tokenize q) { e with keywords := none } =
      scoreEntry (tokenize q) { e with keywords := some [] } ∧
    scoreEntry (tokenize q) { e with subtopics := none } =
      scoreEntry (tokenize q) { e with subtopics := some [] } ∧
    search_syllabus q (data.map normalizeEntry) =
      (search_syllabus q data).map (fun r => { r with entry := normalizeEntry r.entry }) := by
  refine ⟨rfl, rfl, rfl, ?_⟩
  have hhits : hitsFor (tokenize q) (data.map normalizeEntry) =
      (hitsFor (tokenize q) data).map (fun h => (h.1, normalizeEntry h.2.1, h.2.2)) := by
    simp only [hitsFor, List.filterMap_map]
    rw [List.map_filterMap]
    apply List.filterMap_congr
    intro e2 _
    exact hitOf_normalize (tokenize q) e2
  simp only [search_syllabus, hhits]
  rw [sortDesc_map (fun h : Hit => h.1) (fun h : Hit => h.1)
    (fun h => (h.1, normalizeEntry h.2.1, h.2.2)) (fun x => rfl)]
  rw [← List.map_take, List.map_map, List.map_map]
  apply List.map_congr_left
  rintro ⟨s, e2, m⟩ _
  rfl

/-- The per-entry body, returning also the entry as the loop leaves it in the
catalog: every dict operation the body performs on the source entry
(`entry.get`, `entry.copy`) is a read, so the entry comes back unchanged; the
only write (`e["score"] = ...`) targets the fresh copy inside the produced
hit. -/
def visitEntry (qTokens : List String) (entry : Entry) : Entry × Option Hit :=
  (entry, hitOf qTokens entry)

/-- `hits.append(hit)` guarded on the loop producing a hit. -/
def appendHit (hits : List Hit) (h : Option Hit) : List Hit :=
  match h with
  | some hit => hits ++ [hit]
  | none => hits

/-- State-passing rendition of `search_syllabus`: the catalog is threaded
through the entry loop as the mutable store and returned alongside the
results. -/
def search_syllabus_state (query : String) (data : List Entry) :
    List Entry × List ScoredMatch :=
  let qT := tokenize query
  let step := fun (acc : List Entry × List Hit) (e : Entry) =>
    (acc.1 ++ [(visitEntry qT e).1], appendHit acc.2 (visitEntry qT e).2)
  let fin := data.foldl step ([], [])
  (fin.1, ((sortDesc (fun h => h.1) fin.2).take 8).map toMatch)

theorem foldl_visit (qT : List String) (data : List Entry) :
    ∀ (c0 : List Entry) (h0 : List Hit),
      data.foldl (fun (acc : List Entry × List Hit) (e : Entry) =>
        (acc.1 ++ [(visitEntry qT e).1], appendHit acc.2 (visitEntry qT e).2))
        (c0, h0) = (c0 ++ data, h0 ++ hitsFor qT data) := by
  induction data with
  | nil => intro c0 h0; simp [hitsFor]
  | cons e es ih =>
    intro c0 h0
    rw [List.foldl_cons]
    rcases hcase : hitOf qT e with _ | hit
    · show List.foldl _ (c0 ++ [e], appendHit h0 (hitOf qT e)) es = _
      rw [hcase]
      show List.foldl _ (c0 ++ [e], h0) es = _
      rw [ih]
      simp [hitsFor, List.filterMap_cons, hcase, List.append_assoc]
    · show List.foldl _ (c0 ++ [e], appendHit h0 (hitOf qT e)) es = _
      rw [hcase]
      show List.foldl _ (c0 ++ [e], h0 ++ [hit]) es = _
      rw [ih]
      simp [hitsFor, List.filterMap_cons, hcase, List.append_assoc]

/-- C8: the catalog comes out of the search exactly as it went in (scoring
never mutates source entries), and every returned result is a derived copy of
an entry of the catalog. -/
theorem catalog_unchanged (q : String) (data : List Entry) :
    search_syllabus_state q data = (data, search_syllabus q data) ∧
    ∀ r ∈ search_syllabus q data, r.entry ∈ data := by
  constructor
  · simp only [search_syllabus_state, foldl_visit, List.nil_append, search_syllabus]
  · intro r hr
    rcases mem_search hr with ⟨e, he, _, rfl⟩
    exact he

/-- Witness for C8: on a concrete query and catalog the returned result's
entry is one of the catalog's entries. -/
theorem catalog_unchanged_witness : cexEntry "t1" ∈ [cexEntry "t1"] :=
  (catalog_unchanged "cat" [cexEntry "t1"]).2
    { entry := cexEntry "t1", score := 1, matched_subtopics := none } (by decide)

/-- C10: every result consists of exactly its source entry's fields unchanged,
plus the `score` key holding the total score, plus the `matched_subtopics` key
exactly when some subtopic matched — never an empty `matched_subtopics`
list. -/
theorem result_fields (q : String) (data : List Entry) :
    ∀ r ∈ search_syllabus q data, ∃ e ∈ data,
      r.entry = e ∧
      r.score = (scoreEntry (tokenize q) e).1 ∧
      (r.matched_subtopics = none ↔ (scoreEntry (tokenize q) e).2 = []) ∧
      r.matched_subtopics ≠ some [] ∧
      ((scoreEntry (tokenize q) e).2 ≠ [] →
        r.matched_subtopics = some (scoreEntry (tokenize q) e).2) := by
  intro r hr
  rcases mem_search hr with ⟨e, he, _, rfl⟩
  refine ⟨e, he, rfl, rfl, ?_, ?_, ?_⟩
  · by_cases h : (scoreEntry (tokenize q) e).2 = [] <;>
      simp [toMatch, h]
  · by_cases h : (scoreEntry (tokenize q) e).2 = [] <;>
      simp [toMatch, h]
  · intro h
    simp [toMatch, h]

/-- Witness for C10: a concrete result has no `matched_subtopics` key mapped to
an empty list. -/
theorem result_fields_witness :
    ({ entry := cexEntry "t1", score := 1, matched_subtopics := none } :
      ScoredMatch).matched_subtopics ≠ some [] := by
  rcases result_fields "cat" [cexEntry "t1"]
      { entry := cexEntry "t1", score := 1, matched_subtopics := none } (by decide)
    with ⟨e, _, _, _, _, h4, _⟩
  exact h4

/-- The hit triple an entry contributes when its score is non-zero. -/
def hitFor (q : String) (e : Entry) : Hit :=
  ((scoreEntry (tokenize q) e).1, e, (scoreEntry (tokenize q) e).2)

/-- C9: the ranking is a stable sort with respect to catalog order: it
preserves the subsequence of hits at every fixed score, so two entries with
equal non-zero scores appear in the ranked hit list in catalog order, and in
the result list too whenever the hits fit within the cap of 8. -/
theorem stable_tie_break (q : String) (data : List Entry) (a b : Entry)
    (hsub : List.Sublist [a, b] data)
    (heq : (scoreEntry (tokenize q) a).1 = (scoreEntry (tokenize q) b).1)
    (hnz : (scoreEntry (tokenize q) a).1 ≠ 0) :
    (∀ k : Int, (sortDesc (fun h => h.1) (hitsFor (tokenize q) data)).filter
        (fun h => decide (h.1 = k)) =
      (hitsFor (tokenize q) data).filter (fun h => decide (h.1 = k))) ∧
    List.Sublist [hitFor q a, hitFor q b]
      (sortDesc (fun h => h.1) (hitsFor (tokenize q) data)) ∧
    ((hitsFor (tokenize q) data).length ≤ 8 →
      List.Sublist [toMatch (hitFor q a), toMatch (hitFor q b)]
        (search_syllabus q data)) := by
  have hnzb : (scoreEntry (tokenize q) b).1 ≠ 0 := heq ▸ hnz
  have hhits : List.Sublist [hitFor q a, hitFor q b] (hitsFor (tokenize q) data) := by
    have h1 := hsub.filterMap (hitOf (tokenize q))
    have h2 : [a, b].filterMap (hitOf (tokenize q)) = [hitFor q a, hitFor q b] := by
      simp [List.filterMap_cons, hitOf, hnz, hnzb, hitFor]
    rwa [h2] at h1
  have hsorted : List.Sublist [hitFor q a, hitFor q b]
      (sortDesc (fun h => h.1) (hitsFor (tokenize q) data)) :=
    sublist_sortDesc_of_key_eq (fun h => h.1) hhits heq
  refine ⟨fun k => sortDesc_filter _ _ k, hsorted, ?_⟩
  intro hlen
  have hlen2 : (sortDesc (fun h : Hit => h.1) (hitsFor (tokenize q) data)).length ≤ 8 := by
    rw [(sortDesc_perm _ _).length_eq]
    exact hlen
  have htake := List.take_of_length_le hlen2
  show List.Sublist _
    (((sortDesc (fun h => h.1) (hitsFor (tokenize q) data)).take 8).map toMatch)
  rw [htake]
  exact hsorted.map toMatch

/-- Witness for C9: two concrete equal-scored entries appear in the result
list in catalog order. -/
theorem stable_tie_break_witness :
    List.Sublist [toMatch (hitFor "cat" (cexEntry "t1")), toMatch (hitFor "cat" (cexEntry "t2"))]
      (search_syllabus "cat" [cexEntry "t1", cexEntry "t2"]) :=
  (stable_tie_break "cat" [cexEntry "t1", cexEntry "t2"] (cexEntry "t1") (cexEntry "t2")
    (List.Sublist.refl _) (by decide) (by decide)).2.2 (by decide)

/-- A high-weight entry matching `"cat"` with score 5, used to fill the cap. -/
def strongEntry (t : String) : Entry :=
  { topic := t, syllabus_reference := "", book := "", chapter := "", page_range := "",
    weight := some 5, keywords := some ["cat"], subtopics := none }

/-- An entry with no base-keyword match for `"cat dog"` but one matching
subtopic. -/
def subEntry : Entry :=
  { topic := "tsub", syllabus_reference := "", book := "", chapter := "", page_range := "",
    weight := none, keywords := some [],
    subtopics := some [{ name := some "s1", keywords := some ["dog"] }] }

def dataC4 : List Entry :=
  (["t1", "t2", "t3", "t4", "t5", "t6", "t7", "t8"].map strongEntry) ++ [subEntry]

/-- C4 counterexample: an entry with zero base matches and one matching
subtopic is nevertheless absent from the results when eight higher-scoring
entries exist, because of the top-8 truncation. -/
theorem subtopic_only_excluded_cex :
    matchScore (subEntry.weight.getD 1) (tokenize "cat dog") (entryTokens subEntry) = 0 ∧
    (∃ s ∈ subEntry.subtopics.getD [],
      matchScore (subEntry.weight.getD 1) (tokenize "cat dog") (subTokens s) ≠ 0) ∧
    subEntry ∈ dataC4 ∧
    ∀ r ∈ search_syllabus "cat dog" dataC4, r.entry ≠ subEntry := by
  decide

theorem sum_map_mul_left_nat {α : Type} (w : Int) (f : α → Nat) (l : List α) :
    (l.map (fun x => w * ((f x : Nat) : Int))).sum = w * (((l.map f).sum : Nat) : Int) := by
  induction l with
  | nil => simp
  | cons x xs ih =>
    simp only [List.map_cons, List.sum_cons, ih]
    push_cast
    ring

/-- C4 (amended): an entry with zero base-keyword matches but some matching
subtopic is kept as a hit with score equal to the sum of its subtopic
contributions (each weight × match-count) and with the matching subtopics'
names recorded; it appears in the returned results whenever the hits fit
within the cap of 8. -/
theorem subtopic_only_match (q : String) (data : List Entry) (e : Entry)
    (he : e ∈ data)
    (hbase : matchScore (e.weight.getD 1) (tokenize q) (entryTokens e) = 0)
    (hsome : ∃ s ∈ e.subtopics.getD [],
      matchScore (e.weight.getD 1) (tokenize q) (subTokens s) ≠ 0) :
    (scoreEntry (tokenize q) e).1 =
      ((e.subtopics.getD []).map
        (fun s => matchScore (e.weight.getD 1) (tokenize q) (subTokens s))).sum ∧
    (scoreEntry (tokenize q) e).1 ≠ 0 ∧
    hitFor q e ∈ hitsFor (tokenize q) data ∧
    (scoreEntry (tokenize q) e).2 =
      ((e.subtopics.getD []).filter
        (fun s => decide (matchScore (e.weight.getD 1) (tokenize q) (subTokens s) ≠ 0))).map
        (fun s => s.name) ∧
    ((hitsFor (tokenize q) data).length ≤ 8 →
      toMatch (hitFor q e) ∈ search_syllabus q data) := by
  have htot : (scoreEntry (tokenize q) e).1 =
      ((e.subtopics.getD []).map
        (fun s => matchScore (e.weight.getD 1) (tokenize q) (subTokens s))).sum := by
    rw [scoreEntry_fst, hbase, zero_add]
  have hc : ∀ s : Subtopic, matchScore (e.weight.getD 1) (tokenize q) (subTokens s) =
      (e.weight.getD 1) *
        ((((tokenize q).filter (fun t => decide (t ∈ subTokens s))).length : Nat) : Int) :=
    fun s => matchScore_eq _ _ _
  have hnz : (scoreEntry (tokenize q) e).1 ≠ 0 := by
    rcases hsome with ⟨s0, hs0, hns0⟩
    rw [htot]
    have hmaps : ((e.subtopics.getD []).map
        (fun s => matchScore (e.weight.getD 1) (tokenize q) (subTokens s))).sum =
        (e.weight.getD 1) *
          ((((e.subtopics.getD []).map
            (fun s => ((tokenize q).filter (fun t => decide (t ∈ subTokens s))).length)).sum
              : Nat) : Int) := by
      simp only [hc]
      exact sum_map_mul_left_nat _ _ _
    rw [hmaps]
    have hw : (e.weight.getD 1) ≠ 0 := by
      intro h
      apply hns0
      rw [hc s0, h, zero_mul]
    have hcnt0 : ((tokenize q).filter (fun t => decide (t ∈ subTokens s0))).length ≠ 0 := by
      intro h
      apply hns0
      rw [hc s0, h]
      simp
    have hle : ((tokenize q).filter (fun t => decide (t ∈ subTokens s0))).length ≤
        ((e.subtopics.getD []).map
          (fun s => ((tokenize q).filter (fun t => decide (t ∈ subTokens s))).length)).sum :=
      List.single_le_sum (fun x _ => Nat.zero_le x) _
        (List.mem_map_of_mem _ hs0)
    have hsumnz : (((((e.subtopics.getD []).map
        (fun s => ((tokenize q).filter (fun t => decide (t ∈ subTokens s))).length)).sum)
          : Nat) : Int) ≠ 0 := by
      have h1 : ((e.subtopics.getD []).map
          (fun s => ((tokenize q).filter (fun t => decide (t ∈ subTokens s))).length)).sum ≠ 0 := by
        omega
      exact_mod_cast h1
    exact mul_ne_zero hw hsumnz
  refine ⟨htot, hnz, ?_, scoreEntry_snd _ _, ?_⟩
  · exact mem_hitsFor.mpr ⟨e, he, hnz, rfl⟩
  · intro hlen
    have hmem : hitFor q e ∈ sortDesc (fun h : Hit => h.1) (hitsFor (tokenize q) data) :=
      (sortDesc_perm _ _).mem_iff.mpr (mem_hitsFor.mpr ⟨e, he, hnz, rfl⟩)
    have hlen2 : (sortDesc (fun h : Hit => h.1) (hitsFor (tokenize q) data)).length ≤ 8 := by
      rw [(sortDesc_perm _ _).length_eq]
      exact hlen
    have htake := List.take_of_length_le hlen2
    show toMatch (hitFor q e) ∈
      (((sortDesc (fun h => h.1) (hitsFor (tokenize q) data)).take 8).map toMatch)
    rw [htake]
    exact List.mem_map_of_mem toMatch hmem

/-- Witness for the amended C4: on a one-entry catalog, the subtopic-only
entry's result is returned. -/
theorem subtopic_only_match_witness :
    toMatch (hitFor "cat dog" subEntry) ∈ search_syllabus "cat dog" [subEntry] :=
  (subtopic_only_match "cat dog" [subEntry] subEntry (by decide) (by decide)
    (by decide)).2.2.2.2 (by decide)

theorem toMatch_inj : ∀ h1 h2 : Hit, toMatch h1 = toMatch h2 → h1 = h2 := by
  rintro ⟨s1, e1, m1⟩ ⟨s2, e2, m2⟩ h
  simp only [toMatch, ScoredMatch.mk.injEq] at h
  rcases h with ⟨he, hs, hm⟩
  subst he
  subst hs
  cases m1 <;> cases m2 <;> simp_all

/-- Weight-5 entry matching the single query keyword `alpha`. -/
def entryW5 : Entry :=
  { topic := "w5", syllabus_reference := "", book := "", chapter := "", page_range := "",
    weight := some 5, keywords := some ["alpha"], subtopics := none }

/-- Weight-1 entry with the same single base-keyword overlap `alpha`, plus a
subtopic matching five further query tokens. -/
def entryW1sub : Entry :=
  { topic := "w1", syllabus_reference := "", book := "", chapter := "", page_range := "",
    weight := some 1, keywords := some ["alpha"],
    subtopics := some [{ name := some "s"
                         keywords := some ["beta", "gamma", "delta", "epsilon", "zeta"] }] }

/-- Weight-1 entry with the single base-keyword overlap `alpha` and no
subtopics. -/
def entryW1plain : Entry :=
  { topic := "w1p", syllabus_reference := "", book := "", chapter := "", page_range := "",
    weight := some 1, keywords := some ["alpha"], subtopics := none }

def qC5 : String := "alpha beta gamma delta epsilon zeta"

/-- C5 counterexample: both entries have identical single-keyword overlap with
the query and weights 5 and 1 respectively, yet the weight-1 entry ranks
strictly higher, because its subtopic contributions raise its total score
to 6 against 5. -/
theorem weight_rank_cex :
    ((tokenize qC5).filter (fun t => decide (t ∈ entryTokens entryW5))).length = 1 ∧
    ((tokenize qC5).filter (fun t => decide (t ∈ entryTokens entryW1sub))).length = 1 ∧
    entryW5.weight = some 5 ∧ entryW1sub.weight = some 1 ∧
    (search_syllabus qC5 [entryW5, entryW1sub]).map (fun r => (r.entry.topic, r.score)) =
      [("w1", 6), ("w5", 5)] := by
  decide

/-- C5 (amended): for subtopic-free entries with identical non-zero base
overlap count and weights 5 and 1, the weight-5 entry scores five times the
weight-1 entry's score and ranks strictly higher in the ranked hit list, and
strictly earlier in the result list whenever the hits fit within the cap
of 8. -/
theorem weight_amplification (q : String) (data : List Entry) (a b : Entry)
    (ha : a ∈ data) (hb : b ∈ data)
    (hwa : a.weight = some 5) (hwb : b.weight = some 1)
    (hsa : a.subtopics.getD [] = []) (hsb : b.subtopics.getD [] = [])
    (hcnt : ((tokenize q).filter (fun t => decide (t ∈ entryTokens a))).length =
      ((tokenize q).filter (fun t => decide (t ∈ entryTokens b))).length)
    (hnz : ((tokenize q).filter (fun t => decide (t ∈ entryTokens b))).length ≠ 0) :
    (scoreEntry (tokenize q) a).1 =
      5 * ((((tokenize q).filter (fun t => decide (t ∈ entryTokens b))).length : Nat) : Int) ∧
    (scoreEntry (tokenize q) b).1 =
      ((((tokenize q).filter (fun t => decide (t ∈ entryTokens b))).length : Nat) : Int) ∧
    firstPos (hitFor q a) (sortDesc (fun h => h.1) (hitsFor (tokenize q) data)) <
      firstPos (hitFor q b) (sortDesc (fun h => h.1) (hitsFor (tokenize q) data)) ∧
    ((hitsFor (tokenize q) data).length ≤ 8 →
      firstPos (toMatch (hitFor q a)) (search_syllabus q data) <
        firstPos (toMatch (hitFor q b)) (search_syllabus q data)) := by
  have hsA : (scoreEntry (tokenize q) a).1 =
      5 * ((((tokenize q).filter (fun t => decide (t ∈ entryTokens b))).length : Nat) : Int) := by
    rw [scoreEntry_fst, hsa, matchScore_eq, hwa, hcnt]
    simp
  have hsB : (scoreEntry (tokenize q) b).1 =
      ((((tokenize q).filter (fun t => decide (t ∈ entryTokens b))).length : Nat) : Int) := by
    rw [scoreEntry_fst, hsb, matchScore_eq, hwb]
    simp
  have honec : (1 : Int) ≤
      ((((tokenize q).filter (fun t => decide (t ∈ entryTokens b))).length : Nat) : Int) := by
    have h1 : 1 ≤ ((tokenize q).filter (fun t => decide (t ∈ entryTokens b))).length :=
      Nat.one_le_iff_ne_zero.mpr hnz
    exact_mod_cast h1
  have hclt : (scoreEntry (tokenize q) b).1 < (scoreEntry (tokenize q) a).1 := by
    rw [hsA, hsB]
    linarith
  have hnzA : (scoreEntry (tokenize q) a).1 ≠ 0 := by
    rw [hsA]
    have : (0 : Int) <
        5 * ((((tokenize q).filter (fun t => decide (t ∈ entryTokens b))).length : Nat) : Int) := by
      linarith
    exact ne_of_gt this
  have hnzB : (scoreEntry (tokenize q) b).1 ≠ 0 := by
    rw [hsB]
    have : (0 : Int) <
        ((((tokenize q).filter (fun t => decide (t ∈ entryTokens b))).length : Nat) : Int) := by
      linarith
    exact ne_of_gt this
  have hmemA : hitFor q a ∈ sortDesc (fun h : Hit => h.1) (hitsFor (tokenize q) data) :=
    (sortDesc_perm _ _).mem_iff.mpr (mem_hitsFor.mpr ⟨a, ha, hnzA, rfl⟩)
  have hmemB : hitFor q b ∈ sortDesc (fun h : Hit => h.1) (hitsFor (tokenize q) data) :=
    (sortDesc_perm _ _).mem_iff.mpr (mem_hitsFor.mpr ⟨b, hb, hnzB, rfl⟩)
  have hfp := firstPos_lt_of_key_lt (fun h : Hit => h.1)
    (sortDesc_pairwise _ _) hmemA hmemB hclt
  refine ⟨hsA, hsB, hfp, ?_⟩
  intro hlen
  have hlen2 : (sortDesc (fun h : Hit => h.1) (hitsFor (tokenize q) data)).length ≤ 8 := by
    rw [(sortDesc_perm _ _).length_eq]
    exact hlen
  have htake := List.take_of_length_le hlen2
  show firstPos _ (((sortDesc (fun h => h.1) (hitsFor (tokenize q) data)).take 8).map toMatch) <
    firstPos _ (((sortDesc (fun h => h.1) (hitsFor (tokenize q) data)).take 8).map toMatch)
  rw [htake, firstPos_map_of_inj toMatch toMatch_inj, firstPos_map_of_inj toMatch toMatch_inj]
  exact hfp

/-- Witness for the amended C5: with the weight-1 entry first in the catalog,
the weight-5 entry still comes out strictly earlier in the result list. -/
theorem weight_amplification_witness :
    firstPos (toMatch (hitFor "alpha" entryW5))
        (search_syllabus "alpha" [entryW1plain, entryW5]) <
      firstPos (toMatch (hitFor "alpha" entryW1plain))
        (search_syllabus "alpha" [entryW1plain, entryW5]) :=
  (weight_amplification "alpha" [entryW1plain, entryW5] entryW5 entryW1plain
    (by decide) (by decide) (by decide) (by decide) (by decide) (by decide)
    (by decide) (by decide)).2.2.2 (by decide)

end Tost
